import Mathlib

/-!
Shallow embedding of the huff-rs library (`src/lib.rs`): a Huffman-coding
codec consisting of a tree type (`HuffTree`), a builder that performs the
greedy merge (`HuffBuilder`), derivation of the symbol-to-bitpath encoding
map (`HuffTree.encoding` via `HuffTree.build_map`), and the streaming
encoder (`HuffWriter`) and decoder (`HuffReader`).

Modelling conventions:
- Rust's `HashMap<V, Vec<bool>>` is modelled as an association list
  `List (V × List Bool)` whose `insert` overwrites the binding of an
  existing key and appends a fresh one otherwise; only `insert`, `get`
  and the multiset of entries are observable in the source.
- The bit sink / bit source collaborator (the external `bitstream` crate)
  is modelled as a pure `List Bool`: the Writer appends emitted bits to
  its sink list, the Reader consumes bits from the front of its source
  list, and an exhausted source list is the collaborator's clean
  end-of-input (`read_bit` returning `None`).
- `std::io::Result` is modelled by `Except HuffError`, keeping the two
  error kinds the source constructs (`InvalidInput`, `UnexpectedEof`).
  Writer/Reader methods mutate `self`; here they return the result paired
  with the updated state.
- Rust machine integers do not occur: weights are a caller-chosen type
  with `PartialOrd + Add`.  All claims concern comparable weights, so the
  weight type is taken with a `LinearOrder` (the tests use `u32` with
  small values, embedded as `Nat`, where no overflow is reachable).
- `Vec::sort_by` is stable; its comparator here is a total order on the
  weights, and every stable sort agrees on such input, so it is embedded
  as a stable insertion sort (`sortDesc`) with the same comparator.
- `slice::binary_search_by` is embedded by the classic `base`/`size`
  halving loop of the Rust standard library, driven by the identical
  three-way comparator built from `new_weight`; the loop's `size` strictly
  decreases, so fuel `size` (initially the list length) is enough and the
  definition stays structurally recursive.
- The `while nodes.len() > 1` merge loop removes exactly one list entry
  per iteration, so it is embedded with fuel equal to the initial length
  (`mergeLoopFuel`), which provably suffices.
-/

/-- The recursive tree type of `src/lib.rs`: `HuffTree::Leaf(V)` or
`HuffTree::Node(Box<HuffTree>, Box<HuffTree>)`. -/
inductive HuffTree (V : Type) where
  | Leaf : V → HuffTree V
  | Node : HuffTree V → HuffTree V → HuffTree V
  deriving DecidableEq

/-- `HuffTree::new_leaf`. -/
def HuffTree.new_leaf {V : Type} (value : V) : HuffTree V :=
  HuffTree.Leaf value

/-- `HuffTree::new_node`. -/
def HuffTree.new_node {V : Type} (left right : HuffTree V) : HuffTree V :=
  HuffTree.Node left right

/-- `HashMap::insert` on the association-list model: overwrite the binding
of an existing key, append a fresh binding otherwise. -/
def insertA {V : Type} [DecidableEq V] :
    List (V × List Bool) → V → List Bool → List (V × List Bool)
  | [], k, p => [(k, p)]
  | q :: m, k, p => if q.1 = k then (k, p) :: m else q :: insertA m k p

/-- `HashMap::get` on the association-list model. -/
def lookupA {V : Type} [DecidableEq V] (m : List (V × List Bool)) (k : V) :
    Option (List Bool) :=
  (m.find? (fun q => q.1 = k)).map Prod.snd

/-- `HuffTree::build_map`: record each leaf's root-to-leaf trail in the
map, descending left with `false` pushed and then right with `true`
pushed (the left subtree is processed entirely before the right one). -/
def HuffTree.build_map {V : Type} [DecidableEq V] :
    HuffTree V → List Bool → List (V × List Bool) → List (V × List Bool)
  | .Leaf v, trail, m => insertA m v trail
  | .Node l r, trail, m =>
      HuffTree.build_map r (trail ++ [true])
        (HuffTree.build_map l (trail ++ [false]) m)

/-- `HuffTree::encoding`: build the map starting from the empty trail and
the empty map. -/
def HuffTree.encoding {V : Type} [DecidableEq V] (t : HuffTree V) :
    List (V × List Bool) :=
  HuffTree.build_map t [] []

/-- Leaf values of a tree, in left-before-right traversal order. -/
def HuffTree.leaves {V : Type} : HuffTree V → List V
  | .Leaf v => [v]
  | .Node l r => HuffTree.leaves l ++ HuffTree.leaves r

/-- Height of a tree: a leaf has height `0`, so the height bounds the
length of every root-to-leaf bit path. -/
def HuffTree.height {V : Type} : HuffTree V → Nat
  | .Leaf _ => 0
  | .Node l r => max (HuffTree.height l) (HuffTree.height r) + 1

/-- Subtree reached from `t` by following a bit path (`false` = left,
`true` = right); `none` if the path walks past a leaf. -/
def HuffTree.subtreeAt {V : Type} : HuffTree V → List Bool → Option (HuffTree V)
  | t, [] => some t
  | .Leaf _, _ :: _ => none
  | .Node l r, b :: bs => HuffTree.subtreeAt (if b then r else l) bs

/-- The (value, root-to-leaf path) pairs of all leaves, in the traversal
order of `build_map` (current node's left subtree entirely before its
right subtree).  Used to phrase which duplicate leaf's path survives in
the encoding map. -/
def HuffTree.leafPaths {V : Type} : HuffTree V → List Bool → List (V × List Bool)
  | .Leaf v, trail => [(v, trail)]
  | .Node l r, trail =>
      HuffTree.leafPaths l (trail ++ [false]) ++ HuffTree.leafPaths r (trail ++ [true])

/-- `HuffBuilder`: the accumulated `(symbol, weight)` pairs in insertion
order. -/
structure HuffBuilder (V W : Type) where
  nodes : List (V × W)
  deriving DecidableEq

/-- `HuffBuilder::new`. -/
def HuffBuilder.new {V W : Type} : HuffBuilder V W := ⟨[]⟩

/-- `HuffBuilder::add`: append one pair. -/
def HuffBuilder.add {V W : Type} (b : HuffBuilder V W) (sym : V) (weight : W) :
    HuffBuilder V W :=
  ⟨b.nodes ++ [(sym, weight)]⟩

/-- Stable insertion into a descending-by-weight list: the new element
goes after every strictly heavier element and before equal-weight ones
(the new element is the earlier one in the original order). -/
def insDesc {V W : Type} [LinearOrder W] (x : V × W) :
    List (V × W) → List (V × W)
  | [] => [x]
  | y :: ys => if x.2 < y.2 then y :: insDesc x ys else x :: y :: ys

/-- The stable sort `self.nodes.sort_by(|a, b| ...)` of `build`:
descending by weight, equal weights keeping their insertion order. -/
def sortDesc {V W : Type} [LinearOrder W] (l : List (V × W)) : List (V × W) :=
  l.foldr insDesc []

/-- The comparator closure passed to `binary_search_by` in `build`:
compare the pending entry's weight `a` against `new_weight` (here
`target`), `Greater` when `target > a`, `Less` when `target < a`. -/
def cmpW {W : Type} [LinearOrder W] (target a : W) : Ordering :=
  if target > a then .gt else if target < a then .lt else .eq

/-- The halving loop of `slice::binary_search_by` (classic `base`/`size`
formulation): while `size > 1`, probe `mid = base + size / 2` and keep
`base` on `Greater`, move it to `mid` otherwise.  `size` shrinks by
`size / 2 ≥ 1` each round, so fuel equal to the initial `size` is enough;
once the fuel is exhausted the current `base` is returned (never reached
with sufficient fuel). -/
def bsLoopFuel {W : Type} [LinearOrder W] (target : W) (ws : List W) :
    Nat → Nat → Nat → Nat
  | 0, base, _ => base
  | fuel + 1, base, size =>
    if size ≤ 1 then base
    else
      let half := size / 2
      let mid := base + half
      match cmpW target (ws.getD mid target) with
      | .gt => bsLoopFuel target ws fuel base (size - half)
      | _ => bsLoopFuel target ws fuel mid (size - half)

/-- `slice::binary_search_by` with the `build` comparator, collapsing
`Ok(i)`/`Err(i)` to the insertion index `i` exactly as `build` does. -/
def bsearch {W : Type} [LinearOrder W] (target : W) (ws : List W) : Nat :=
  if ws.length = 0 then 0
  else
    let base := bsLoopFuel target ws ws.length 0 ws.length
    match cmpW target (ws.getD base target) with
    | .eq => base
    | .lt => base + 1
    | .gt => base

/-- One iteration of the `while nodes.len() > 1` loop of
`HuffBuilder::build`: pop the last entry (`right`), pop the new last
entry (`left`), combine them into `Node(left, right)` with the summed
weight, and insert the combined entry at the index found by
`binary_search_by` over the remaining entries. -/
def mergeStep {V W : Type} [LinearOrder W] [Add W]
    (nodes : List (HuffTree V × W)) : List (HuffTree V × W) :=
  match nodes.getLast?, nodes.dropLast.getLast? with
  | some (right_value, right_weight), some (left_value, left_weight) =>
      let rest := nodes.dropLast.dropLast
      let new_weight := left_weight + right_weight
      let node := HuffTree.new_node left_value right_value
      rest.insertIdx (bsearch new_weight (rest.map Prod.snd)) (node, new_weight)
  | _, _ => nodes

/-- The merge loop, with fuel: each iteration removes one entry, so fuel
equal to the initial length provably reaches `nodes.len() ≤ 1`. -/
def mergeLoopFuel {V W : Type} [LinearOrder W] [Add W] :
    Nat → List (HuffTree V × W) → List (HuffTree V × W)
  | 0, nodes => nodes
  | fuel + 1, nodes =>
      if nodes.length ≤ 1 then nodes else mergeLoopFuel fuel (mergeStep nodes)

/-- The initial working list of `build`: the pairs sorted descending by
weight, each wrapped as a leaf. -/
def initNodes {V W : Type} [LinearOrder W] (pairs : List (V × W)) :
    List (HuffTree V × W) :=
  (sortDesc pairs).map (fun q => (HuffTree.new_leaf q.1, q.2))

/-- `HuffBuilder::build`: sort descending, wrap as leaves, run the merge
loop, and pop the remaining entry (`None` when no pair was ever added). -/
def HuffBuilder.build {V W : Type} [LinearOrder W] [Add W]
    (b : HuffBuilder V W) : Option (HuffTree V) :=
  let nodes := initNodes b.nodes
  let final := mergeLoopFuel nodes.length nodes
  match final.getLast? with
  | some (val, _) => some val
  | none => none

/-- The two `std::io::ErrorKind`s the source constructs. -/
inductive HuffError where
  | invalidInput
  | unexpectedEof
  deriving DecidableEq

/-- `HuffWriter`: the encoding map derived from the tree, plus the bit
sink modelled as the list of bits emitted so far. -/
structure HuffWriter (V : Type) where
  encoding : List (V × List Bool)
  sink : List Bool
  deriving DecidableEq

/-- `HuffWriter::new`: derive the encoding map from the tree; the sink
starts with no bits written. -/
def HuffWriter.new {V : Type} [DecidableEq V] (tree : HuffTree V) : HuffWriter V :=
  ⟨tree.encoding, []⟩

/-- `HuffWriter::write`: look the symbol up in the encoding map; absent
symbols fail with `InvalidInput` and emit nothing, present symbols emit
each bit of the path in order. -/
def HuffWriter.write {V : Type} [DecidableEq V] (w : HuffWriter V) (value : V) :
    Except HuffError Unit × HuffWriter V :=
  match lookupA w.encoding value with
  | none => (.error .invalidInput, w)
  | some bits => (.ok (), ⟨w.encoding, w.sink ++ bits⟩)

/-- Repeated `HuffWriter::write` calls, one per symbol, stopping at the
first failure. -/
def writeSeq {V : Type} [DecidableEq V] (w : HuffWriter V) :
    List V → Except HuffError Unit × HuffWriter V
  | [] => (.ok (), w)
  | v :: vs =>
      match HuffWriter.write w v with
      | (.ok _, w') => writeSeq w' vs
      | (e, w') => (e, w')

/-- `HuffReader`: the tree plus the bit source modelled as the list of
bits not yet consumed. -/
structure HuffReader (V : Type) where
  tree : HuffTree V
  bits : List Bool
  deriving DecidableEq

/-- `HuffReader::new`. -/
def HuffReader.new {V : Type} (tree : HuffTree V) (bits : List Bool) :
    HuffReader V :=
  ⟨tree, bits⟩

/-- The traversal loop of `HuffReader::read`: at a leaf return its value
without touching the source; at a node read one bit (an exhausted source
is `read_bit() = None`, turned into `UnexpectedEof`) and descend right on
`true`, left on `false`.  Returns the result together with the bits left
in the source. -/
def readAux {V : Type} : HuffTree V → List Bool → Except HuffError V × List Bool
  | .Leaf v, bs => (.ok v, bs)
  | .Node _ _, [] => (.error .unexpectedEof, [])
  | .Node l r, b :: bs => if b then readAux r bs else readAux l bs

/-- `HuffReader::read`: run the traversal loop from the tree root (the
cursor is local to the call, so every call starts at the root). -/
def HuffReader.read {V : Type} (rd : HuffReader V) :
    Except HuffError V × HuffReader V :=
  ((readAux rd.tree rd.bits).1, ⟨rd.tree, (readAux rd.tree rd.bits).2⟩)

/-- `n` successive `HuffReader::read` calls, collecting the decoded
symbols, stopping at the first failure. -/
def readN {V : Type} : Nat → HuffReader V → Except HuffError (List V) × HuffReader V
  | 0, rd => (.ok [], rd)
  | n + 1, rd =>
      match HuffReader.read rd with
      | (.ok v, rd') =>
          match readN n rd' with
          | (.ok vs, rd'') => (.ok (v :: vs), rd'')
          | (.error e, rd'') => (.error e, rd'')
      | (.error e, rd') => (.error e, rd')

/-- Concatenation of all leaf values of a working list's trees. -/
def allLeaves {V W : Type} (nodes : List (HuffTree V × W)) : List V :=
  nodes.flatMap (fun q => HuffTree.leaves q.1)

/-- The working list of `build` sorted descending by weight (later
entries never heavier than earlier ones). -/
def SortedDescW {V W : Type} [LinearOrder W] (nodes : List (HuffTree V × W)) : Prop :=
  List.Pairwise (fun a b => b.2 ≤ a.2) nodes

/-- The lists of pending entries reachable inside `build`'s merge loop
from a given starting list: the start itself, and the result of one more
`mergeStep` from any reachable list still holding more than one entry. -/
inductive MergeReaches {V W : Type} [LinearOrder W] [Add W] :
    List (HuffTree V × W) → List (HuffTree V × W) → Prop
  | refl (l : List (HuffTree V × W)) : MergeReaches l l
  | step (l l' : List (HuffTree V × W)) :
      MergeReaches l l' → 2 ≤ l'.length → MergeReaches l (mergeStep l')

-- Sanity examples exercising the embedding on the repository's tests.
example :
    (((HuffBuilder.new.add 'a' (1 : Nat)).add 'b' 2).add 'd' 10).build =
      some (HuffTree.new_node (HuffTree.new_leaf 'd')
        (HuffTree.new_node (HuffTree.new_leaf 'b') (HuffTree.new_leaf 'a'))) := by
  decide

example :
    ((((HuffBuilder.new.add 'a' (1 : Nat)).add 'b' 1).add 'c' 1).add 'd' 1).build =
      some (HuffTree.new_node
        (HuffTree.new_node (HuffTree.new_leaf 'a') (HuffTree.new_leaf 'b'))
        (HuffTree.new_node (HuffTree.new_leaf 'c') (HuffTree.new_leaf 'd'))) := by
  decide

/-! ### Association-list map lemmas -/

theorem lookupA_cons {V : Type} [DecidableEq V] (q : V × List Bool)
    (m : List (V × List Bool)) (k : V) :
    lookupA (q :: m) k = if q.1 = k then some q.2 else lookupA m k := by
  by_cases h : q.1 = k <;> simp [lookupA, List.find?_cons, h]

theorem lookupA_insertA_self {V : Type} [DecidableEq V]
    (m : List (V × List Bool)) (k : V) (p : List Bool) :
    lookupA (insertA m k p) k = some p := by
  induction m with
  | nil => simp [insertA, lookupA_cons, lookupA]
  | cons q m ih =>
    by_cases h : q.1 = k
    · simp [insertA, h, lookupA_cons]
    · simpa [insertA, h, lookupA_cons] using ih

theorem lookupA_insertA_ne {V : Type} [DecidableEq V]
    (m : List (V × List Bool)) (k k' : V) (p : List Bool) (hne : k' ≠ k) :
    lookupA (insertA m k p) k' = lookupA m k' := by
  induction m with
  | nil => simp [insertA, lookupA_cons, lookupA, Ne.symm hne]
  | cons q m ih =>
    by_cases h : q.1 = k
    · rw [show insertA (q :: m) k p = (k, p) :: m from by simp [insertA, h]]
      rw [lookupA_cons, lookupA_cons, h]
      simp [Ne.symm hne]
    · rw [show insertA (q :: m) k p = q :: insertA m k p from by simp [insertA, h]]
      rw [lookupA_cons, lookupA_cons, ih]

theorem mem_map_fst_insertA {V : Type} [DecidableEq V]
    (m : List (V × List Bool)) (k k' : V) (p : List Bool) :
    k' ∈ (insertA m k p).map Prod.fst ↔ k' = k ∨ k' ∈ m.map Prod.fst := by
  induction m with
  | nil => simp [insertA]
  | cons q m ih =>
    by_cases h : q.1 = k
    · rw [show insertA (q :: m) k p = (k, p) :: m from by simp [insertA, h]]
      simp only [List.map_cons, List.mem_cons, h]
      tauto
    · rw [show insertA (q :: m) k p = q :: insertA m k p from by simp [insertA, h]]
      simp only [List.map_cons, List.mem_cons, ih]
      tauto

theorem nodup_map_fst_insertA {V : Type} [DecidableEq V]
    (m : List (V × List Bool)) (k : V) (p : List Bool)
    (hn : (m.map Prod.fst).Nodup) :
    ((insertA m k p).map Prod.fst).Nodup := by
  induction m with
  | nil => simp [insertA]
  | cons q m ih =>
    simp only [List.map_cons, List.nodup_cons] at hn
    by_cases h : q.1 = k
    · rw [show insertA (q :: m) k p = (k, p) :: m from by simp [insertA, h]]
      simp only [List.map_cons, List.nodup_cons]
      exact ⟨h ▸ hn.1, hn.2⟩
    · rw [show insertA (q :: m) k p = q :: insertA m k p from by simp [insertA, h]]
      simp only [List.map_cons, List.nodup_cons]
      refine ⟨fun hm => ?_, ih hn.2⟩
      rcases (mem_map_fst_insertA m k q.1 p).mp hm with h1 | h1
      · exact h h1
      · exact hn.1 h1

/-! ### Leaf-path lemmas -/

theorem leafPaths_map_fst {V : Type} (t : HuffTree V) (trail : List Bool) :
    (t.leafPaths trail).map Prod.fst = t.leaves := by
  induction t generalizing trail with
  | Leaf v => simp [HuffTree.leafPaths, HuffTree.leaves]
  | Node l r ihl ihr => simp [HuffTree.leafPaths, HuffTree.leaves, ihl, ihr]

theorem mem_leafPaths {V : Type} (t : HuffTree V) (trail : List Bool)
    (q : V × List Bool) (hq : q ∈ t.leafPaths trail) :
    ∃ rest, q.2 = trail ++ rest ∧ t.subtreeAt rest = some (HuffTree.Leaf q.1) := by
  induction t generalizing trail with
  | Leaf v =>
    simp only [HuffTree.leafPaths, List.mem_singleton] at hq
    subst hq
    exact ⟨[], by simp [HuffTree.subtreeAt]⟩
  | Node l r ihl ihr =>
    simp only [HuffTree.leafPaths, List.mem_append] at hq
    rcases hq with hq | hq
    · obtain ⟨rest, h1, h2⟩ := ihl (trail ++ [false]) hq
      exact ⟨false :: rest, by simpa using h1, by simpa [HuffTree.subtreeAt] using h2⟩
    · obtain ⟨rest, h1, h2⟩ := ihr (trail ++ [true]) hq
      exact ⟨true :: rest, by simpa using h1, by simpa [HuffTree.subtreeAt] using h2⟩

/-! ### `build_map` lemmas -/

/-- The recorded path of every leaf holding `k`, in `build_map` traversal
order, last one first absorbing earlier ones. -/
def lastPathFor {V : Type} [DecidableEq V] (t : HuffTree V) (trail : List Bool)
    (k : V) : Option (List Bool) :=
  (((t.leafPaths trail).filter (fun q => q.1 = k)).getLast?).map Prod.snd

theorem lookupA_build_map {V : Type} [DecidableEq V] (t : HuffTree V)
    (trail : List Bool) (m : List (V × List Bool)) (k : V) :
    lookupA (t.build_map trail m) k = (lastPathFor t trail k).or (lookupA m k) := by
  induction t generalizing trail m with
  | Leaf v =>
    by_cases h : v = k
    · subst h
      simp [HuffTree.build_map, lastPathFor, HuffTree.leafPaths,
        lookupA_insertA_self, Option.or]
    · simp [HuffTree.build_map, lastPathFor, HuffTree.leafPaths, h,
        lookupA_insertA_ne _ _ _ _ (Ne.symm h), Option.or]
  | Node l r ihl ihr =>
    have hsplit : lastPathFor (HuffTree.Node l r) trail k =
        (lastPathFor r (trail ++ [true]) k).or (lastPathFor l (trail ++ [false]) k) := by
      simp only [lastPathFor, HuffTree.leafPaths, List.filter_append,
        List.getLast?_append]
      cases ((r.leafPaths (trail ++ [true])).filter (fun q => q.1 = k)).getLast? <;>
        simp [Option.or]
    rw [HuffTree.build_map, ihr, ihl, hsplit, Option.or_assoc]

theorem mem_map_fst_build_map {V : Type} [DecidableEq V] (t : HuffTree V)
    (trail : List Bool) (m : List (V × List Bool)) (k : V) :
    k ∈ (t.build_map trail m).map Prod.fst ↔ k ∈ t.leaves ∨ k ∈ m.map Prod.fst := by
  induction t generalizing trail m with
  | Leaf v =>
    rw [HuffTree.build_map, mem_map_fst_insertA]
    simp [HuffTree.leaves]
  | Node l r ihl ihr =>
    simp only [HuffTree.build_map, HuffTree.leaves, List.mem_append, ihr, ihl]
    tauto

theorem nodup_map_fst_build_map {V : Type} [DecidableEq V] (t : HuffTree V)
    (trail : List Bool) (m : List (V × List Bool))
    (hn : (m.map Prod.fst).Nodup) :
    ((t.build_map trail m).map Prod.fst).Nodup := by
  induction t generalizing trail m with
  | Leaf v => exact nodup_map_fst_insertA m v trail hn
  | Node l r ihl ihr => exact ihr _ _ (ihl _ _ hn)

theorem lookupA_encoding {V : Type} [DecidableEq V] (t : HuffTree V) (k : V) :
    lookupA t.encoding k = lastPathFor t [] k := by
  rw [HuffTree.encoding, lookupA_build_map]
  simp [lookupA, Option.or_none]

theorem lookupA_encoding_leaf {V : Type} [DecidableEq V] (t : HuffTree V)
    (k : V) (p : List Bool) (h : lookupA t.encoding k = some p) :
    t.subtreeAt p = some (HuffTree.Leaf k) := by
  rw [lookupA_encoding, lastPathFor] at h
  obtain ⟨q, hq, hq2⟩ : ∃ q, ((t.leafPaths []).filter
      (fun q => q.1 = k)).getLast? = some q ∧ q.2 = p := by
    cases hgl : ((t.leafPaths []).filter (fun q => q.1 = k)).getLast? with
    | none => rw [hgl] at h; exact absurd h (by simp)
    | some q => rw [hgl] at h; exact ⟨q, rfl, by simpa using h⟩
  have hmem : q ∈ (t.leafPaths []).filter (fun q => q.1 = k) := by
    have hne : (t.leafPaths []).filter (fun q => q.1 = k) ≠ [] := by
      intro hnil; rw [hnil] at hq; simp at hq
    rw [List.getLast?_eq_getLast _ hne] at hq
    exact Option.some_injective _ hq ▸ List.getLast_mem hne
  rw [List.mem_filter] at hmem
  obtain ⟨rest, h1, h2⟩ := mem_leafPaths t [] q hmem.1
  have hk : q.1 = k := by simpa using hmem.2
  have : rest = p := by rw [← hq2, h1]; simp
  rw [← this, ← hk]
  exact h2

theorem mem_leaves_lookupA_isSome {V : Type} [DecidableEq V] (t : HuffTree V)
    (k : V) (h : k ∈ t.leaves) : ∃ p, lookupA t.encoding k = some p := by
  rw [lookupA_encoding, lastPathFor]
  have : ∃ q ∈ t.leafPaths [], q.1 = k := by
    rw [← leafPaths_map_fst t []] at h
    obtain ⟨q, hq, hqk⟩ := List.mem_map.mp h
    exact ⟨q, hq, hqk⟩
  obtain ⟨q, hq, hqk⟩ := this
  have hne : (t.leafPaths []).filter (fun q => q.1 = k) ≠ [] := by
    intro hnil
    have : q ∈ (t.leafPaths []).filter (fun q => q.1 = k) :=
      List.mem_filter.mpr ⟨hq, by simpa using hqk⟩
    rw [hnil] at this; exact absurd this (List.not_mem_nil q)
  rw [List.getLast?_eq_getLast _ hne]
  exact ⟨_, rfl⟩

/-! ### `readAux` lemmas -/

theorem readAux_path {V : Type} (t : HuffTree V) (p rest : List Bool) (v : V)
    (h : t.subtreeAt p = some (HuffTree.Leaf v)) :
    readAux t (p ++ rest) = (.ok v, rest) := by
  induction p generalizing t with
  | nil =>
    simp only [HuffTree.subtreeAt, Option.some.injEq] at h
    subst h
    simp [readAux]
  | cons b bs ih =>
    cases t with
    | Leaf w => simp [HuffTree.subtreeAt] at h
    | Node l r =>
      simp only [HuffTree.subtreeAt] at h
      cases b with
      | false => simpa [readAux] using ih l (by simpa using h)
      | true => simpa [readAux] using ih r (by simpa using h)

theorem readAux_error {V : Type} (t : HuffTree V) (bits : List Bool)
    (e : HuffError) (h : (readAux t bits).1 = .error e) :
    e = .unexpectedEof ∧ (readAux t bits).2 = [] := by
  induction t generalizing bits with
  | Leaf v => simp [readAux] at h
  | Node l r ihl ihr =>
    cases bits with
    | nil =>
      refine ⟨?_, by simp [readAux]⟩
      simpa [readAux] using h.symm
    | cons b bs =>
      cases b with
      | false => exact ihl bs (by simpa [readAux] using h)
      | true => exact ihr bs (by simpa [readAux] using h)

/-- Every `read` call splits the source into a consumed part bounded by
the tree height and an untouched rest; on success the consumed part is a
root-to-leaf path of the returned value. -/
theorem readAux_split {V : Type} (t : HuffTree V) (bits : List Bool) :
    ∃ taken rest, bits = taken ++ rest ∧ (readAux t bits).2 = rest ∧
      taken.length ≤ t.height ∧
      ∀ v, (readAux t bits).1 = .ok v → t.subtreeAt taken = some (HuffTree.Leaf v) := by
  induction t generalizing bits with
  | Leaf w =>
    refine ⟨[], bits, by simp, by simp [readAux], by simp [HuffTree.height], ?_⟩
    intro v hv
    simp only [readAux, Except.ok.injEq] at hv
    simp [HuffTree.subtreeAt, hv]
  | Node l r ihl ihr =>
    cases bits with
    | nil =>
      exact ⟨[], [], by simp, by simp [readAux], by simp, fun v hv => by
        simp [readAux] at hv⟩
    | cons b bs =>
      cases b with
      | false =>
        obtain ⟨taken, rest, h1, h2, h3, h4⟩ := ihl bs
        refine ⟨false :: taken, rest, by simp [h1], by simpa [readAux] using h2, ?_, ?_⟩
        · simp only [List.length_cons, HuffTree.height]
          omega
        · intro v hv
          simpa [HuffTree.subtreeAt] using h4 v (by simpa [readAux] using hv)
      | true =>
        obtain ⟨taken, rest, h1, h2, h3, h4⟩ := ihr bs
        refine ⟨true :: taken, rest, by simp [h1], by simpa [readAux] using h2, ?_, ?_⟩
        · simp only [List.length_cons, HuffTree.height]
          omega
        · intro v hv
          simpa [HuffTree.subtreeAt] using h4 v (by simpa [readAux] using hv)

/-! ### Sorting lemmas -/

theorem insDesc_perm {V W : Type} [LinearOrder W] (x : V × W) (l : List (V × W)) :
    (insDesc x l).Perm (x :: l) := by
  induction l with
  | nil => simp [insDesc]
  | cons y ys ih =>
    by_cases h : x.2 < y.2
    · rw [show insDesc x (y :: ys) = y :: insDesc x ys from by simp [insDesc, h]]
      exact (ih.cons y).trans (List.Perm.swap x y ys)
    · rw [show insDesc x (y :: ys) = x :: y :: ys from by simp [insDesc, h]]

theorem sortDesc_perm {V W : Type} [LinearOrder W] (l : List (V × W)) :
    (sortDesc l).Perm l := by
  induction l with
  | nil => simp [sortDesc]
  | cons x xs ih =>
    rw [show sortDesc (x :: xs) = insDesc x (sortDesc xs) from rfl]
    exact (insDesc_perm x (sortDesc xs)).trans (ih.cons x)

theorem mem_insDesc {V W : Type} [LinearOrder W] (x y : V × W) (l : List (V × W)) :
    y ∈ insDesc x l ↔ y = x ∨ y ∈ l := by
  rw [(insDesc_perm x l).mem_iff]
  simp

theorem insDesc_pairwise {V W : Type} [LinearOrder W] (x : V × W)
    (l : List (V × W)) (h : List.Pairwise (fun a b => b.2 ≤ a.2) l) :
    List.Pairwise (fun a b => b.2 ≤ a.2) (insDesc x l) := by
  induction l with
  | nil => simp [insDesc]
  | cons y ys ih =>
    rw [List.pairwise_cons] at h
    by_cases hlt : x.2 < y.2
    · rw [show insDesc x (y :: ys) = y :: insDesc x ys from by simp [insDesc, hlt]]
      rw [List.pairwise_cons]
      refine ⟨fun z hz => ?_, ih h.2⟩
      rcases (mem_insDesc x z ys).mp hz with rfl | hz
      · exact le_of_lt hlt
      · exact h.1 z hz
    · rw [show insDesc x (y :: ys) = x :: y :: ys from by simp [insDesc, hlt]]
      rw [List.pairwise_cons]
      refine ⟨fun z hz => ?_, List.pairwise_cons.mpr h⟩
      rcases List.mem_cons.mp hz with rfl | hz
      · exact le_of_not_lt hlt
      · exact le_trans (h.1 z hz) (le_of_not_lt hlt)

theorem sortDesc_pairwise {V W : Type} [LinearOrder W] (l : List (V × W)) :
    List.Pairwise (fun a b => b.2 ≤ a.2) (sortDesc l) := by
  induction l with
  | nil => simp [sortDesc]
  | cons x xs ih => exact insDesc_pairwise x (sortDesc xs) ih

/-! ### Writer and reader sequence lemmas -/

/-- The bit path the Writer emits for a symbol (defined when the symbol is
in the map). -/
def pathOf {V : Type} [DecidableEq V] (enc : List (V × List Bool)) (v : V) :
    List Bool :=
  (lookupA enc v).getD []

theorem writeSeq_ok {V : Type} [DecidableEq V] (enc : List (V × List Bool))
    (sink : List Bool) (ms : List V)
    (h : ∀ v ∈ ms, ∃ p, lookupA enc v = some p) :
    writeSeq ⟨enc, sink⟩ ms =
      (.ok (), ⟨enc, sink ++ ms.flatMap (pathOf enc)⟩) := by
  induction ms generalizing sink with
  | nil => simp [writeSeq]
  | cons v vs ih =>
    obtain ⟨p, hp⟩ := h v (List.mem_cons_self v vs)
    rw [writeSeq, show HuffWriter.write ⟨enc, sink⟩ v =
        (.ok (), ⟨enc, sink ++ p⟩) from by simp [HuffWriter.write, hp]]
    simp only [ih (sink ++ p) (fun w hw => h w (List.mem_cons_of_mem v hw))]
    simp [pathOf, hp, List.flatMap_cons]

theorem readN_paths {V : Type} [DecidableEq V] (t : HuffTree V) (ms : List V)
    (extra : List Bool)
    (h : ∀ v ∈ ms, ∃ p, lookupA t.encoding v = some p) :
    readN ms.length ⟨t, ms.flatMap (pathOf t.encoding) ++ extra⟩ =
      (.ok ms, ⟨t, extra⟩) := by
  induction ms generalizing extra with
  | nil => simp [readN]
  | cons v vs ih =>
    obtain ⟨p, hp⟩ := h v (List.mem_cons_self v vs)
    have hleaf := lookupA_encoding_leaf t v p hp
    have hpath : pathOf t.encoding v = p := by simp [pathOf, hp]
    have hbits : (v :: vs).flatMap (pathOf t.encoding) ++ extra =
        p ++ (vs.flatMap (pathOf t.encoding) ++ extra) := by
      rw [List.flatMap_cons, hpath, List.append_assoc]
    rw [show (v :: vs).length = vs.length + 1 from rfl, readN, hbits]
    rw [show HuffReader.read ⟨t, p ++ (vs.flatMap (pathOf t.encoding) ++ extra)⟩ =
        (.ok v, ⟨t, vs.flatMap (pathOf t.encoding) ++ extra⟩) from by
      simp [HuffReader.read, readAux_path t p _ v hleaf]]
    simp only [ih extra (fun w hw => h w (List.mem_cons_of_mem v hw))]

/-! ### Binary-search lemmas -/

theorem cmpW_gt_iff {W : Type} [LinearOrder W] (target a : W) :
    cmpW target a = .gt ↔ a < target := by
  unfold cmpW
  split_ifs with h1 h2 <;> simp_all

theorem cmpW_lt_iff {W : Type} [LinearOrder W] (target a : W) :
    cmpW target a = .lt ↔ target < a := by
  unfold cmpW
  split_ifs with h1 h2
  · exact iff_of_false (by decide) (asymm h1)
  · exact iff_of_true rfl h2
  · exact iff_of_false (by decide) h2

theorem cmpW_ngt_le {W : Type} [LinearOrder W] (target a : W)
    (h : cmpW target a ≠ .gt) : target ≤ a := by
  by_contra hlt
  exact h ((cmpW_gt_iff target a).mpr (lt_of_not_le hlt))

theorem pairwise_ge_getD {W : Type} [LinearOrder W] (ws : List W) (d : W)
    (hp : List.Pairwise (fun a b => b ≤ a) ws) (i j : Nat) (hij : i ≤ j)
    (hj : j < ws.length) : ws.getD j d ≤ ws.getD i d := by
  rcases eq_or_lt_of_le hij with rfl | hlt
  · exact le_refl _
  · rw [List.getD_eq_getElem ws d hj, List.getD_eq_getElem ws d (lt_trans hlt hj)]
    exact List.pairwise_iff_getElem.mp hp i j (lt_trans hlt hj) hj hlt

theorem bsLoopFuel_spec {W : Type} [LinearOrder W] (target : W) (ws : List W)
    (hp : List.Pairwise (fun a b => b ≤ a) ws) :
    ∀ fuel base size, 1 ≤ size → size ≤ fuel → base + size ≤ ws.length →
    (base = 0 ∨ target ≤ ws.getD base target) →
    (∀ i, base + size ≤ i → i < ws.length → ws.getD i target ≤ target) →
    (bsLoopFuel target ws fuel base size = 0 ∨
      target ≤ ws.getD (bsLoopFuel target ws fuel base size) target) ∧
    (∀ i, bsLoopFuel target ws fuel base size + 1 ≤ i → i < ws.length →
      ws.getD i target ≤ target) ∧
    bsLoopFuel target ws fuel base size < ws.length := by
  intro fuel
  induction fuel with
  | zero => intro base size h1 h2 _ _ _; omega
  | succ fuel ih =>
    intro base size h1 h2 h3 hI1 hI2
    by_cases hsz : size ≤ 1
    · rw [show bsLoopFuel target ws (fuel + 1) base size = base from by
        rw [bsLoopFuel, if_pos hsz]]
      exact ⟨hI1, fun i hi hlen => hI2 i (by omega) hlen, by omega⟩
    · have hhalf1 : 1 ≤ size / 2 := by omega
      have hhalf2 : size / 2 < size := by omega
      have hmidlt : base + size / 2 < ws.length := by omega
      cases hc : cmpW target (ws.getD (base + size / 2) target) with
      | gt =>
        have heq : bsLoopFuel target ws (fuel + 1) base size =
            bsLoopFuel target ws fuel base (size - size / 2) := by
          rw [bsLoopFuel, if_neg hsz]
          simp only [hc]
        rw [heq]
        have hmid : ws.getD (base + size / 2) target < target :=
          (cmpW_gt_iff target _).mp hc
        refine ih base (size - size / 2) (by omega) (by omega) (by omega) hI1 ?_
        intro i hi hlen
        by_cases hbig : base + size ≤ i
        · exact hI2 i hbig hlen
        · have : base + size / 2 ≤ i := by omega
          exact le_trans (pairwise_ge_getD ws target hp _ i this hlen)
            (le_of_lt hmid)
      | lt =>
        have heq : bsLoopFuel target ws (fuel + 1) base size =
            bsLoopFuel target ws fuel (base + size / 2) (size - size / 2) := by
          rw [bsLoopFuel, if_neg hsz]
          simp only [hc]
        rw [heq]
        have hmid : target ≤ ws.getD (base + size / 2) target :=
          cmpW_ngt_le target _ (by rw [hc]; decide)
        refine ih (base + size / 2) (size - size / 2) (by omega) (by omega)
          (by omega) (Or.inr hmid) ?_
        intro i hi hlen
        exact hI2 i (by omega) hlen
      | eq =>
        have heq : bsLoopFuel target ws (fuel + 1) base size =
            bsLoopFuel target ws fuel (base + size / 2) (size - size / 2) := by
          rw [bsLoopFuel, if_neg hsz]
          simp only [hc]
        rw [heq]
        have hmid : target ≤ ws.getD (base + size / 2) target :=
          cmpW_ngt_le target _ (by rw [hc]; decide)
        refine ih (base + size / 2) (size - size / 2) (by omega) (by omega)
          (by omega) (Or.inr hmid) ?_
        intro i hi hlen
        exact hI2 i (by omega) hlen

theorem bsearch_bounds {W : Type} [LinearOrder W] (target : W) (ws : List W)
    (hp : List.Pairwise (fun a b => b ≤ a) ws) :
    bsearch target ws ≤ ws.length ∧
    (∀ a ∈ ws.take (bsearch target ws), target ≤ a) ∧
    (∀ a ∈ ws.drop (bsearch target ws), a ≤ target) := by
  by_cases hlen : ws.length = 0
  · rw [show bsearch target ws = 0 from by rw [bsearch, if_pos hlen]]
    rw [List.length_eq_zero.mp hlen]
    simp
  · obtain ⟨hI1, hI2, hblen⟩ := bsLoopFuel_spec target ws hp ws.length 0 ws.length
      (by omega) (le_refl _) (by omega) (Or.inl rfl) (fun i hi hl => by omega)
    set b := bsLoopFuel target ws ws.length 0 ws.length with hb
    have htake : ∀ pos, pos ≤ b + 1 → pos ≤ ws.length →
        (pos ≤ b ∨ target ≤ ws.getD b target) → ∀ a ∈ ws.take pos, target ≤ a := by
      intro pos hpos hposlen hor a ha
      obtain ⟨i, hi, hia⟩ := List.mem_iff_getElem.mp ha
      have hilen : i < ws.length := lt_of_lt_of_le (lt_of_lt_of_le hi (by
        simp [List.length_take])) (le_refl _)
      have hipos : i < pos := lt_of_lt_of_le hi (by simp [List.length_take])
      rw [List.getElem_take] at hia
      rw [← hia, ← List.getD_eq_getElem ws target hilen]
      have hbtarget : target ≤ ws.getD b target := by
        rcases hor with hor | hor
        · rcases hI1 with h0 | h1
          · omega
          · exact h1
        · exact hor
      exact le_trans hbtarget (pairwise_ge_getD ws target hp i b (by omega) hblen)
    have hdrop : ∀ pos, b ≤ pos → (b < pos ∨ ws.getD b target ≤ target) →
        ∀ a ∈ ws.drop pos, a ≤ target := by
      intro pos hpos hor a ha
      obtain ⟨i, hi, hia⟩ := List.mem_iff_getElem.mp ha
      rw [List.getElem_drop] at hia
      have hilen : pos + i < ws.length := by
        have := hi
        simp only [List.length_drop] at this
        omega
      rw [← hia, ← List.getD_eq_getElem ws target hilen]
      by_cases hoi : b + 1 ≤ pos + i
      · exact hI2 (pos + i) hoi hilen
      · have hpi : pos + i = b := by omega
        rcases hor with hor | hor
        · omega
        · rw [hpi]; exact hor
    have hbs : bsearch target ws =
        match cmpW target (ws.getD b target) with
        | .eq => b
        | .lt => b + 1
        | .gt => b := by
      rw [bsearch, if_neg hlen]
    cases hc : cmpW target (ws.getD b target) with
    | eq =>
      have hposv : bsearch target ws = b := by rw [hbs, hc]
      rw [hposv]
      have heqt : ws.getD b target = target :=
        le_antisymm (by
          have := cmpW_ngt_le target (ws.getD b target) (by rw [hc]; decide)
          have hle : ¬ target < ws.getD b target := by
            intro hlt
            rw [(cmpW_lt_iff target _).mpr hlt] at hc
            exact absurd hc (by decide)
          exact le_of_not_lt hle) (cmpW_ngt_le target _ (by rw [hc]; decide))
      refine ⟨by omega, htake b (by omega) (by omega) (Or.inr (le_of_eq heqt.symm)), ?_⟩
      exact hdrop b (le_refl _) (Or.inr (le_of_eq heqt))
    | lt =>
      have hposv : bsearch target ws = b + 1 := by rw [hbs, hc]
      rw [hposv]
      have hlt : target < ws.getD b target := (cmpW_lt_iff target _).mp hc
      refine ⟨by omega, htake (b + 1) (le_refl _) (by omega)
        (Or.inr (le_of_lt hlt)), ?_⟩
      exact hdrop (b + 1) (by omega) (Or.inl (by omega))
    | gt =>
      have hposv : bsearch target ws = b := by rw [hbs, hc]
      rw [hposv]
      have hgt : ws.getD b target < target := (cmpW_gt_iff target _).mp hc
      have hb0 : b = 0 := by
        rcases hI1 with h0 | h1
        · exact h0
        · exact absurd h1 (not_le_of_lt hgt)
      refine ⟨by omega, ?_, ?_⟩
      · rw [hb0]; simp
      · exact hdrop b (le_refl _) (Or.inr (le_of_lt hgt))

/-! ### Merge-step lemmas -/

theorem insertIdx_split {α : Type} (x : α) :
    ∀ (pos : Nat) (l : List α), pos ≤ l.length →
      l.insertIdx pos x = l.take pos ++ x :: l.drop pos := by
  intro pos
  induction pos with
  | zero => intro l _; simp [List.insertIdx_zero]
  | succ pos ih =>
    intro l hl
    cases l with
    | nil => simp at hl
    | cons y ys =>
      rw [List.insertIdx_succ_cons, ih ys (by simpa using hl)]
      simp

theorem bsLoopFuel_lt_length {W : Type} [LinearOrder W] (target : W) (ws : List W) :
    ∀ fuel base size, 1 ≤ size → size ≤ fuel → base + size ≤ ws.length →
    bsLoopFuel target ws fuel base size < ws.length := by
  intro fuel
  induction fuel with
  | zero => intro base size h1 h2 _; omega
  | succ fuel ih =>
    intro base size h1 h2 h3
    by_cases hsz : size ≤ 1
    · rw [show bsLoopFuel target ws (fuel + 1) base size = base from by
        rw [bsLoopFuel, if_pos hsz]]
      omega
    · cases hc : cmpW target (ws.getD (base + size / 2) target) with
      | gt =>
        rw [show bsLoopFuel target ws (fuel + 1) base size =
            bsLoopFuel target ws fuel base (size - size / 2) from by
          rw [bsLoopFuel, if_neg hsz]; simp only [hc]]
        exact ih base (size - size / 2) (by omega) (by omega) (by omega)
      | lt =>
        rw [show bsLoopFuel target ws (fuel + 1) base size =
            bsLoopFuel target ws fuel (base + size / 2) (size - size / 2) from by
          rw [bsLoopFuel, if_neg hsz]; simp only [hc]]
        exact ih (base + size / 2) (size - size / 2) (by omega) (by omega) (by omega)
      | eq =>
        rw [show bsLoopFuel target ws (fuel + 1) base size =
            bsLoopFuel target ws fuel (base + size / 2) (size - size / 2) from by
          rw [bsLoopFuel, if_neg hsz]; simp only [hc]]
        exact ih (base + size / 2) (size - size / 2) (by omega) (by omega) (by omega)

theorem bsearch_le_length {W : Type} [LinearOrder W] (target : W) (ws : List W) :
    bsearch target ws ≤ ws.length := by
  by_cases hlen : ws.length = 0
  · rw [show bsearch target ws = 0 from by rw [bsearch, if_pos hlen]]
    omega
  · have hblt := bsLoopFuel_lt_length target ws ws.length 0 ws.length
      (by omega) (le_refl _) (by omega)
    have hbs : bsearch target ws =
        match cmpW target (ws.getD (bsLoopFuel target ws ws.length 0 ws.length) target) with
        | .eq => bsLoopFuel target ws ws.length 0 ws.length
        | .lt => bsLoopFuel target ws ws.length 0 ws.length + 1
        | .gt => bsLoopFuel target ws ws.length 0 ws.length := by
      rw [bsearch, if_neg hlen]
    cases hc : cmpW target (ws.getD (bsLoopFuel target ws ws.length 0 ws.length) target) with
    | eq => rw [show bsearch target ws = bsLoopFuel target ws ws.length 0 ws.length from
        by rw [hbs, hc]]; omega
    | lt => rw [show bsearch target ws = bsLoopFuel target ws ws.length 0 ws.length + 1 from
        by rw [hbs, hc]]; omega
    | gt => rw [show bsearch target ws = bsLoopFuel target ws ws.length 0 ws.length from
        by rw [hbs, hc]]; omega

theorem exists_concat2 {α : Type} (l : List α) (h : 2 ≤ l.length) :
    ∃ rest s f, l = rest ++ [s, f] := by
  have h1 : l ≠ [] := by intro hn; rw [hn] at h; simp at h
  have e1 := List.dropLast_append_getLast h1
  have h2 : l.dropLast ≠ [] := by
    intro hn
    have := List.length_dropLast l
    rw [hn] at this
    simp at this
    omega
  have e2 := List.dropLast_append_getLast h2
  refine ⟨l.dropLast.dropLast, l.dropLast.getLast h2, l.getLast h1, ?_⟩
  calc l = l.dropLast ++ [l.getLast h1] := e1.symm
    _ = (l.dropLast.dropLast ++ [l.dropLast.getLast h2]) ++ [l.getLast h1] := by
        rw [e2]
    _ = l.dropLast.dropLast ++ [l.dropLast.getLast h2, l.getLast h1] := by simp

theorem mergeStep_concat {V W : Type} [LinearOrder W] [Add W]
    (rest : List (HuffTree V × W)) (s f : HuffTree V × W) :
    mergeStep (rest ++ [s, f]) =
      rest.insertIdx (bsearch (s.2 + f.2) (rest.map Prod.snd))
        (HuffTree.new_node s.1 f.1, s.2 + f.2) := by
  obtain ⟨sv, sw⟩ := s
  obtain ⟨fv, fw⟩ := f
  have h1 : (rest ++ [(sv, sw), (fv, fw)]).getLast? = some (fv, fw) := by
    rw [show rest ++ [(sv, sw), (fv, fw)] = (rest ++ [(sv, sw)]) ++ [(fv, fw)] from by simp]
    exact List.getLast?_concat _
  have h2 : (rest ++ [(sv, sw), (fv, fw)]).dropLast = rest ++ [(sv, sw)] := by
    rw [show rest ++ [(sv, sw), (fv, fw)] = (rest ++ [(sv, sw)]) ++ [(fv, fw)] from by simp]
    exact List.dropLast_concat
  rw [mergeStep, h1, h2, List.getLast?_concat, List.dropLast_concat]

theorem mergeStep_length {V W : Type} [LinearOrder W] [Add W]
    (rest : List (HuffTree V × W)) (s f : HuffTree V × W) :
    (mergeStep (rest ++ [s, f])).length = rest.length + 1 := by
  rw [mergeStep_concat]
  exact List.length_insertIdx _ _ (le_trans (bsearch_le_length _ _) (by simp))

theorem mergeStep_pairwise {V W : Type} [LinearOrder W] [Add W]
    (rest : List (HuffTree V × W)) (s f : HuffTree V × W)
    (hp : SortedDescW (rest ++ [s, f])) :
    SortedDescW (mergeStep (rest ++ [s, f])) := by
  rw [mergeStep_concat]
  have hrp : SortedDescW rest :=
    List.Pairwise.sublist (List.sublist_append_left rest [s, f]) hp
  have hmp : List.Pairwise (fun a b => b ≤ a) (rest.map Prod.snd) :=
    List.pairwise_map.mpr hrp
  obtain ⟨hle, htake, hdrop⟩ := bsearch_bounds (s.2 + f.2) (rest.map Prod.snd) hmp
  have hlen : bsearch (s.2 + f.2) (rest.map Prod.snd) ≤ rest.length := by
    simpa using hle
  rw [insertIdx_split _ _ rest hlen]
  unfold SortedDescW
  rw [List.pairwise_append]
  refine ⟨List.Pairwise.sublist (List.take_sublist _ _) hrp, ?_, ?_⟩
  · rw [List.pairwise_cons]
    refine ⟨fun b hb => ?_, List.Pairwise.sublist (List.drop_sublist _ _) hrp⟩
    have : b.2 ∈ (rest.map Prod.snd).drop (bsearch (s.2 + f.2) (rest.map Prod.snd)) := by
      rw [← List.map_drop]
      exact List.mem_map_of_mem _ hb
    exact hdrop _ this
  · intro a ha b hb
    rcases List.mem_cons.mp hb with rfl | hb
    · have : a.2 ∈ (rest.map Prod.snd).take (bsearch (s.2 + f.2) (rest.map Prod.snd)) := by
        rw [← List.map_take]
        exact List.mem_map_of_mem _ ha
      exact htake _ this
    · have hrp2 : List.Pairwise (fun a b => b.2 ≤ a.2)
          (rest.take (bsearch (s.2 + f.2) (rest.map Prod.snd)) ++
            rest.drop (bsearch (s.2 + f.2) (rest.map Prod.snd))) := by
        rw [List.take_append_drop]
        exact hrp
      exact (List.pairwise_append.mp hrp2).2.2 a ha b hb

theorem mergeStep_perm {V W : Type} [LinearOrder W] [Add W]
    (rest : List (HuffTree V × W)) (s f : HuffTree V × W) :
    (allLeaves (mergeStep (rest ++ [s, f]))).Perm (allLeaves (rest ++ [s, f])) := by
  rw [mergeStep_concat]
  have hlen : bsearch (s.2 + f.2) (rest.map Prod.snd) ≤ rest.length := by
    have := bsearch_le_length (s.2 + f.2) (rest.map Prod.snd)
    simpa using this
  have h1 : ((rest.insertIdx (bsearch (s.2 + f.2) (rest.map Prod.snd))
      (HuffTree.new_node s.1 f.1, s.2 + f.2))).Perm
      ((HuffTree.new_node s.1 f.1, s.2 + f.2) :: rest) :=
    List.perm_insertIdx _ _ hlen
  have h2 := List.Perm.flatMap_right (fun q => HuffTree.leaves q.1) h1
  refine List.Perm.trans h2 ?_
  simp only [allLeaves, List.flatMap_cons, List.flatMap_append,
    HuffTree.new_node, HuffTree.leaves, List.flatMap_nil, List.append_nil]
  have := @List.perm_append_comm _ (HuffTree.leaves s.1 ++ HuffTree.leaves f.1)
    (rest.flatMap (fun q => HuffTree.leaves q.1))
  simpa using this

/-! ### Merge-loop and build lemmas -/

theorem mem_of_getLast?_eq {α : Type} (l : List α) (x : α)
    (h : l.getLast? = some x) : x ∈ l := by
  have hne : l ≠ [] := by intro hn; rw [hn] at h; simp at h
  rw [List.getLast?_eq_getLast l hne] at h
  exact (Option.some_injective _ h) ▸ List.getLast_mem hne

theorem getLast_min {V W : Type} [LinearOrder W]
    (nodes : List (HuffTree V × W)) (hp : SortedDescW nodes)
    (f : HuffTree V × W) (h : nodes.getLast? = some f) :
    ∀ q ∈ nodes, f.2 ≤ q.2 := by
  induction nodes with
  | nil => simp at h
  | cons a as ih =>
    cases as with
    | nil =>
      have : f = a := by simpa using h.symm
      subst this
      intro q hq
      have : q = f := by simpa using hq
      rw [this]
    | cons b bs =>
      rw [List.getLast?_cons_cons] at h
      rw [SortedDescW, List.pairwise_cons] at hp
      intro q hq
      rcases List.mem_cons.mp hq with rfl | hq
      · exact hp.1 f (mem_of_getLast?_eq _ _ h)
      · exact ih hp.2 h q hq

theorem mergeReaches_sorted {V W : Type} [LinearOrder W] [Add W]
    (start nodes : List (HuffTree V × W)) (hs : SortedDescW start)
    (hr : MergeReaches start nodes) : SortedDescW nodes := by
  induction hr with
  | refl => exact hs
  | step l' _ h2 ih =>
    obtain ⟨rest, s, f, rfl⟩ := exists_concat2 l' h2
    exact mergeStep_pairwise rest s f ih

theorem mergeLoopFuel_singleton {V W : Type} [LinearOrder W] [Add W] :
    ∀ (fuel : Nat) (nodes : List (HuffTree V × W)), 1 ≤ nodes.length →
    nodes.length ≤ fuel → ∃ p, mergeLoopFuel fuel nodes = [p] := by
  intro fuel
  induction fuel with
  | zero => intro nodes h1 h2; omega
  | succ fuel ih =>
    intro nodes h1 h2
    rw [mergeLoopFuel]
    by_cases hsz : nodes.length ≤ 1
    · rw [if_pos hsz]
      exact List.length_eq_one.mp (by omega)
    · rw [if_neg hsz]
      obtain ⟨rest, s, f, rfl⟩ := exists_concat2 nodes (by omega)
      have hlen := mergeStep_length rest s f
      have hlen2 : (rest ++ [s, f]).length = rest.length + 2 := by simp
      exact ih (mergeStep (rest ++ [s, f])) (by omega) (by omega)

theorem mergeLoopFuel_perm {V W : Type} [LinearOrder W] [Add W] :
    ∀ (fuel : Nat) (nodes : List (HuffTree V × W)),
    (allLeaves (mergeLoopFuel fuel nodes)).Perm (allLeaves nodes) := by
  intro fuel
  induction fuel with
  | zero => intro nodes; exact List.Perm.refl _
  | succ fuel ih =>
    intro nodes
    rw [mergeLoopFuel]
    by_cases hsz : nodes.length ≤ 1
    · rw [if_pos hsz]
    · rw [if_neg hsz]
      obtain ⟨rest, s, f, rfl⟩ := exists_concat2 nodes (by omega)
      exact (ih (mergeStep (rest ++ [s, f]))).trans (mergeStep_perm rest s f)

theorem initNodes_sorted {V W : Type} [LinearOrder W] (pairs : List (V × W)) :
    SortedDescW (initNodes pairs) := by
  unfold SortedDescW initNodes
  rw [List.pairwise_map]
  exact sortDesc_pairwise pairs

theorem allLeaves_map_leaf {V W : Type} (l : List (V × W)) :
    allLeaves (l.map (fun q => (HuffTree.new_leaf q.1, q.2))) = l.map Prod.fst := by
  induction l with
  | nil => simp [allLeaves]
  | cons q qs ih =>
    simp only [List.map_cons, allLeaves, List.flatMap_cons] at ih ⊢
    rw [ih]
    simp [HuffTree.new_leaf, HuffTree.leaves]

theorem build_spec {V W : Type} [LinearOrder W] [Add W]
    (b : HuffBuilder V W) (hne : b.nodes ≠ []) :
    ∃ t, b.build = some t ∧ (t.leaves).Perm (b.nodes.map Prod.fst) := by
  have hlen0 : (sortDesc b.nodes).length = b.nodes.length :=
    (sortDesc_perm b.nodes).length_eq
  have hlen1 : 1 ≤ (initNodes b.nodes).length := by
    unfold initNodes
    rw [List.length_map, hlen0]
    exact List.length_pos.mpr hne
  obtain ⟨p, hp⟩ := mergeLoopFuel_singleton (initNodes b.nodes).length
    (initNodes b.nodes) hlen1 (le_refl _)
  obtain ⟨t, w⟩ := p
  refine ⟨t, ?_, ?_⟩
  · rw [HuffBuilder.build]
    simp only [hp, List.getLast?_singleton]
  · have h1 := mergeLoopFuel_perm (initNodes b.nodes).length (initNodes b.nodes)
    rw [hp] at h1
    have h2 : allLeaves [(t, w)] = t.leaves := by
      simp [allLeaves]
    have h3 : allLeaves (initNodes b.nodes) = (sortDesc b.nodes).map Prod.fst := by
      unfold initNodes
      exact allLeaves_map_leaf _
    rw [h2, h3] at h1
    exact h1.trans ((sortDesc_perm b.nodes).map Prod.fst)

theorem subtreeAt_append {V : Type} (t : HuffTree V) (p q : List Bool) :
    t.subtreeAt (p ++ q) = (t.subtreeAt p).bind (fun s => s.subtreeAt q) := by
  induction p generalizing t with
  | nil => simp [HuffTree.subtreeAt]
  | cons b bs ih =>
    cases t with
    | Leaf v => simp [HuffTree.subtreeAt]
    | Node l r =>
      cases b with
      | false => simpa [HuffTree.subtreeAt] using ih l
      | true => simpa [HuffTree.subtreeAt] using ih r

/-! ### Claims -/

/-- Claim C1: for every non-empty collection of (symbol, positive weight)
pairs with distinct symbols, building a tree with `HuffBuilder::build`,
writing any finite sequence of those symbols with `HuffWriter::write`, and
then calling `HuffReader::read` the same number of times on the produced
bit stream with the same tree returns exactly the original sequence. -/
theorem claim_C1_round_trip {V W : Type} [DecidableEq V] [LinearOrder W]
    [Add W] [Zero W] (pairs : List (V × W)) (hne : pairs ≠ [])
    (hdist : (pairs.map Prod.fst).Nodup)
    (hpos : ∀ q ∈ pairs, (0 : W) < q.2)
    (ms : List V) (hms : ∀ v ∈ ms, v ∈ pairs.map Prod.fst) :
    ∃ t wr, (HuffBuilder.mk pairs).build = some t ∧
      writeSeq (HuffWriter.new t) ms = (.ok (), wr) ∧
      (readN ms.length (HuffReader.new t wr.sink)).1 = .ok ms := by
  obtain ⟨t, hbuild, hperm⟩ := build_spec ⟨pairs⟩ hne
  have hmem : ∀ v ∈ ms, ∃ p, lookupA t.encoding v = some p := by
    intro v hv
    exact mem_leaves_lookupA_isSome t v (hperm.mem_iff.mpr (hms v hv))
  have hw := writeSeq_ok t.encoding [] ms hmem
  refine ⟨t, ⟨t.encoding, [] ++ ms.flatMap (pathOf t.encoding)⟩, hbuild, ?_, ?_⟩
  · rw [HuffWriter.new]
    exact hw
  · have hr := readN_paths t ms [] hmem
    rw [HuffReader.new]
    show (readN ms.length ⟨t, [] ++ ms.flatMap (pathOf t.encoding)⟩).1 = _
    rw [show ([] ++ ms.flatMap (pathOf t.encoding) : List Bool) =
      ms.flatMap (pathOf t.encoding) ++ [] from by simp, hr]

/-- Witness for C1 at the concrete collection `('a',1), ('b',2)` and the
message `"aba"`. -/
theorem claim_C1_witness :
    ∃ t wr, (HuffBuilder.mk [('a', (1 : Nat)), ('b', 2)]).build = some t ∧
      writeSeq (HuffWriter.new t) ['a', 'b', 'a'] = (.ok (), wr) ∧
      (readN (['a', 'b', 'a'].length) (HuffReader.new t wr.sink)).1 =
        .ok ['a', 'b', 'a'] :=
  claim_C1_round_trip [('a', 1), ('b', 2)] (by decide) (by decide) (by decide)
    ['a', 'b', 'a'] (by decide)

/-- The tree the source's `build_simple_tree` test asserts for the pairs
`('a',1), ('b',2), ('d',10)`. -/
def skewTree : HuffTree Char :=
  HuffTree.Node (HuffTree.Leaf 'd')
    (HuffTree.Node (HuffTree.Leaf 'b') (HuffTree.Leaf 'a'))

/-- Counterexample to claim C2: with the pairs `('a',1), ('b',2), ('d',10)`
the built tree places the leaves `'b'` and `'a'` at the same depth 2 (as
left and right child of the same node), so the depth of leaf `'b'` is NOT
strictly smaller than the depth of leaf `'a'` as the claim states. -/
theorem claim_C2_counterexample :
    (((HuffBuilder.new.add 'a' (1 : Nat)).add 'b' 2).add 'd' 10).build =
      some skewTree ∧
    lookupA skewTree.encoding 'b' = some [true, false] ∧
    lookupA skewTree.encoding 'a' = some [true, true] ∧
    ¬ ([true, false] : List Bool).length < ([true, true] : List Bool).length := by
  decide

/-- Claim C2 as amended: adding `('a',1), ('b',2), ('d',10)` in that order
and building yields a tree in which `'d'` is a leaf that is a direct child
of the root (path `[false]`, depth 1) and `'b'` and `'a'` are leaves under
the other child of the root — `'b'` as its left child (path
`[true, false]`) and `'a'` as its right child (path `[true, true]`), both
at the same depth 2 (not with `'b'` strictly shallower). -/
theorem claim_C2_amended :
    (((HuffBuilder.new.add 'a' (1 : Nat)).add 'b' 2).add 'd' 10).build =
      some skewTree ∧
    skewTree = HuffTree.new_node (HuffTree.new_leaf 'd')
      (HuffTree.new_node (HuffTree.new_leaf 'b') (HuffTree.new_leaf 'a')) ∧
    lookupA skewTree.encoding 'd' = some [false] ∧
    lookupA skewTree.encoding 'b' = some [true, false] ∧
    lookupA skewTree.encoding 'a' = some [true, true] := by
  decide

/-- Claim C3: with totally ordered weights, at every iteration of the
merge loop of `build` (every pending list reachable from the sorted
initial list that still has at least two entries), the first-popped entry
(the last list entry) has minimal weight among all pending entries, the
second-popped entry (the last entry of the rest) has minimal weight among
the remaining entries, and the second-popped weight is at least the
first-popped weight. -/
theorem claim_C3_greedy_invariant {V W : Type} [LinearOrder W] [Add W]
    (pairs : List (V × W)) (nodes : List (HuffTree V × W))
    (hr : MergeReaches (initNodes pairs) nodes) (h2 : 2 ≤ nodes.length) :
    ∃ pf ps, nodes.getLast? = some pf ∧ nodes.dropLast.getLast? = some ps ∧
      pf.2 ≤ ps.2 ∧ (∀ q ∈ nodes, pf.2 ≤ q.2) ∧
      (∀ q ∈ nodes.dropLast, ps.2 ≤ q.2) := by
  have hs := mergeReaches_sorted _ _ (initNodes_sorted pairs) hr
  obtain ⟨rest, s, f, rfl⟩ := exists_concat2 nodes h2
  have hl1 : (rest ++ [s, f]).getLast? = some f := by
    rw [show rest ++ [s, f] = (rest ++ [s]) ++ [f] from by simp]
    exact List.getLast?_concat _
  have hdl : (rest ++ [s, f]).dropLast = rest ++ [s] := by
    rw [show rest ++ [s, f] = (rest ++ [s]) ++ [f] from by simp]
    exact List.dropLast_concat
  have hmin := getLast_min _ hs f hl1
  have hs2 : SortedDescW (rest ++ [s]) := by
    rw [← hdl]
    exact List.Pairwise.sublist (List.dropLast_sublist _) hs
  have hmin2 := getLast_min _ hs2 s (List.getLast?_concat _)
  refine ⟨f, s, hl1, by rw [hdl]; exact List.getLast?_concat _, ?_, hmin, ?_⟩
  · exact hmin s (by simp)
  · rw [hdl]
    exact hmin2

/-- Witness for C3 at the initial pending list of the pairs
`('a',1), ('b',2), ('d',10)`. -/
theorem claim_C3_witness :
    ∃ pf ps, (initNodes [('a', (1 : Nat)), ('b', 2), ('d', 10)]).getLast? = some pf ∧
      (initNodes [('a', (1 : Nat)), ('b', 2), ('d', 10)]).dropLast.getLast? = some ps ∧
      pf.2 ≤ ps.2 ∧
      (∀ q ∈ initNodes [('a', (1 : Nat)), ('b', 2), ('d', 10)], pf.2 ≤ q.2) ∧
      (∀ q ∈ (initNodes [('a', (1 : Nat)), ('b', 2), ('d', 10)]).dropLast, ps.2 ≤ q.2) :=
  claim_C3_greedy_invariant [('a', 1), ('b', 2), ('d', 10)] _
    (MergeReaches.refl _) (by decide)

/-- Claim C4: for every tree produced by `HuffBuilder::build`, the
root-to-leaf bit path of no leaf extends to the path of a different leaf
(no proper-prefix relation between leaf paths), and in the map returned by
`encoding()` the recorded path of one symbol never extends to the recorded
path of a different symbol. -/
theorem claim_C4_prefix_free {V W : Type} [DecidableEq V] [LinearOrder W]
    [Add W] (pairs : List (V × W)) (t : HuffTree V)
    (hb : (HuffBuilder.mk pairs).build = some t) :
    (∀ p1 v1 p2 v2, t.subtreeAt p1 = some (HuffTree.Leaf v1) →
      t.subtreeAt p2 = some (HuffTree.Leaf v2) → p1 ≠ p2 →
      ∀ ext, p1 ++ ext ≠ p2) ∧
    (∀ k1 k2 p1 p2, k1 ≠ k2 → lookupA t.encoding k1 = some p1 →
      lookupA t.encoding k2 = some p2 → ∀ ext, p1 ++ ext ≠ p2) := by
  constructor
  · intro p1 v1 p2 v2 h1 h2 hne ext heq
    rw [← heq] at h2
    rw [subtreeAt_append, h1] at h2
    cases ext with
    | nil =>
      exact hne (by simpa using heq)
    | cons b bs =>
      simp [HuffTree.subtreeAt] at h2
  · intro k1 k2 p1 p2 hne h1 h2 ext heq
    have hl1 := lookupA_encoding_leaf t k1 p1 h1
    have hl2 := lookupA_encoding_leaf t k2 p2 h2
    rw [← heq] at hl2
    rw [subtreeAt_append, hl1] at hl2
    cases ext with
    | nil =>
      simp only [Option.some_bind, HuffTree.subtreeAt, Option.some.injEq,
        HuffTree.Leaf.injEq] at hl2
      exact hne hl2
    | cons b bs =>
      simp [HuffTree.subtreeAt] at hl2

/-- Witness for C4 at the tree built from `('a',1), ('b',2)`. -/
theorem claim_C4_witness :
    (∀ p1 v1 p2 v2,
      (HuffTree.Node (HuffTree.Leaf 'b') (HuffTree.Leaf 'a')).subtreeAt p1 =
        some (HuffTree.Leaf v1) →
      (HuffTree.Node (HuffTree.Leaf 'b') (HuffTree.Leaf 'a')).subtreeAt p2 =
        some (HuffTree.Leaf v2) → p1 ≠ p2 → ∀ ext, p1 ++ ext ≠ p2) ∧
    (∀ k1 k2 p1 p2, k1 ≠ k2 →
      lookupA (HuffTree.Node (HuffTree.Leaf 'b') (HuffTree.Leaf 'a')).encoding k1 =
        some p1 →
      lookupA (HuffTree.Node (HuffTree.Leaf 'b') (HuffTree.Leaf 'a')).encoding k2 =
        some p2 → ∀ ext, p1 ++ ext ≠ p2) :=
  claim_C4_prefix_free [('a', (1 : Nat)), ('b', 2)]
    (HuffTree.Node (HuffTree.Leaf 'b') (HuffTree.Leaf 'a')) (by decide)

/-- The tree the source's `build_flat_tree` test asserts for four pairs of
equal weight 1. -/
def flatTree : HuffTree Char :=
  HuffTree.Node (HuffTree.Node (HuffTree.Leaf 'a') (HuffTree.Leaf 'b'))
    (HuffTree.Node (HuffTree.Leaf 'c') (HuffTree.Leaf 'd'))

/-- Claim C5: adding `('a',1), ('b',1), ('c',1), ('d',1)` in that order
and building yields a tree whose `encoding()` assigns `'a'` the path
`[false,false]`, `'b'` the path `[false,true]`, `'c'` the path
`[true,false]` and `'d'` the path `[true,true]` (codes a=00, b=01, c=10,
d=11). -/
theorem claim_C5_flat_codes :
    ((((HuffBuilder.new.add 'a' (1 : Nat)).add 'b' 1).add 'c' 1).add 'd' 1).build =
      some flatTree ∧
    lookupA flatTree.encoding 'a' = some [false, false] ∧
    lookupA flatTree.encoding 'b' = some [false, true] ∧
    lookupA flatTree.encoding 'c' = some [true, false] ∧
    lookupA flatTree.encoding 'd' = some [true, true] := by
  decide

/-- Claim C6: writing a symbol absent from the Writer's encoding map
returns the invalid-input error, emits no bits (the Writer state,
including the sink, is unchanged), and the Writer remains usable: any
subsequent write behaves exactly as if the failed call had never
happened. -/
theorem claim_C6_write_unknown_symbol {V : Type} [DecidableEq V]
    (w : HuffWriter V) (v : V) (h : lookupA w.encoding v = none) :
    HuffWriter.write w v = (.error .invalidInput, w) ∧
    ∀ v', HuffWriter.write (HuffWriter.write w v).2 v' = HuffWriter.write w v' := by
  have h1 : HuffWriter.write w v = (.error .invalidInput, w) := by
    rw [HuffWriter.write, h]
  exact ⟨h1, fun v' => by rw [h1]⟩

/-- Witness for C6: a Writer for the single-leaf tree of `'a'`, asked to
write `'b'`, then successfully used for `'a'`. -/
theorem claim_C6_witness :
    HuffWriter.write (HuffWriter.new (HuffTree.Leaf 'a')) 'b' =
      (.error .invalidInput, HuffWriter.new (HuffTree.Leaf 'a')) ∧
    HuffWriter.write (HuffWriter.write (HuffWriter.new (HuffTree.Leaf 'a')) 'b').2 'a' =
      HuffWriter.write (HuffWriter.new (HuffTree.Leaf 'a')) 'a' :=
  ⟨(claim_C6_write_unknown_symbol (HuffWriter.new (HuffTree.Leaf 'a')) 'b'
      (by decide)).1,
   (claim_C6_write_unknown_symbol (HuffWriter.new (HuffTree.Leaf 'a')) 'b'
      (by decide)).2 'a'⟩

/-- Claim C7: for a tree whose root is an internal node, if the source
reaches clean end-of-input while the traversal is still at an internal
node, `read` returns the end-of-input error, and no partial traversal
position is retained — the Reader state after the call holds only the
unchanged tree and the exhausted source, and the next `read` call starts
again from the root (hitting end-of-input at the root node again). -/
theorem claim_C7_eof_restarts_at_root {V : Type} (l r : HuffTree V)
    (bits : List Bool)
    (h : ∀ v, (readAux (HuffTree.Node l r) bits).1 ≠ .ok v) :
    HuffReader.read ⟨HuffTree.Node l r, bits⟩ =
      (.error .unexpectedEof, ⟨HuffTree.Node l r, []⟩) ∧
    HuffReader.read ⟨HuffTree.Node l r, []⟩ =
      (.error .unexpectedEof, ⟨HuffTree.Node l r, []⟩) := by
  constructor
  · rcases hres : (readAux (HuffTree.Node l r) bits).1 with e | v
    · obtain ⟨he, hrest⟩ := readAux_error _ _ e hres
      rw [HuffReader.read]
      rw [show (⟨HuffTree.Node l r, bits⟩ : HuffReader V).tree = HuffTree.Node l r
        from rfl, show (⟨HuffTree.Node l r, bits⟩ : HuffReader V).bits = bits from rfl,
        hres, hrest, he]
    · exact absurd hres (h v)
  · rw [HuffReader.read]
    simp [readAux]

/-- Witness for C7 on the two-leaf tree with an already-empty source. -/
theorem claim_C7_witness :
    HuffReader.read ⟨HuffTree.Node (HuffTree.Leaf 'a') (HuffTree.Leaf 'b'), []⟩ =
      (.error .unexpectedEof,
        ⟨HuffTree.Node (HuffTree.Leaf 'a') (HuffTree.Leaf 'b'), []⟩) ∧
    HuffReader.read ⟨HuffTree.Node (HuffTree.Leaf 'a') (HuffTree.Leaf 'b'), []⟩ =
      (.error .unexpectedEof,
        ⟨HuffTree.Node (HuffTree.Leaf 'a') (HuffTree.Leaf 'b'), []⟩) :=
  claim_C7_eof_restarts_at_root (HuffTree.Leaf 'a') (HuffTree.Leaf 'b') []
    (fun v hc => by simp [readAux] at hc)

/-- Claim C8: for a single-leaf tree `Leaf v`, `encoding()` maps exactly
`v` to the empty path, a Writer with that map emits zero bits on every
successful `write v` (any sink state is unchanged), and a Reader on that
tree returns `v` on every `read` call while consuming zero bits from any
source. -/
theorem claim_C8_single_leaf {V : Type} [DecidableEq V] (v : V)
    (sink bits : List Bool) :
    HuffTree.encoding (HuffTree.Leaf v) = [(v, [])] ∧
    HuffWriter.write ⟨HuffTree.encoding (HuffTree.Leaf v), sink⟩ v =
      (.ok (), ⟨HuffTree.encoding (HuffTree.Leaf v), sink⟩) ∧
    HuffReader.read ⟨HuffTree.Leaf v, bits⟩ = (.ok v, ⟨HuffTree.Leaf v, bits⟩) := by
  have h1 : HuffTree.encoding (HuffTree.Leaf v) = [(v, [])] := by
    simp [HuffTree.encoding, HuffTree.build_map, insertA]
  refine ⟨h1, ?_, ?_⟩
  · rw [HuffWriter.write]
    rw [show lookupA (⟨HuffTree.encoding (HuffTree.Leaf v), sink⟩ :
        HuffWriter V).encoding v = some [] from by rw [h1]; simp [lookupA_cons]]
    simp [h1]
  · rw [HuffReader.read]
    simp [readAux]

/-- Claim C9: when a value occurs in two or more leaves of a tree, the map
returned by `encoding()` has exactly one entry for that value, and its
path is the recorded path of the duplicate leaf visited last by the
traversal that walks each node's left subtree entirely before its right
subtree (the rightmost duplicate leaf). -/
theorem claim_C9_duplicate_leaves {V : Type} [DecidableEq V]
    (t : HuffTree V) (v : V) (hdup : 2 ≤ t.leaves.count v) :
    (t.encoding.map Prod.fst).count v = 1 ∧
    lookupA t.encoding v =
      (((t.leafPaths []).filter (fun q => q.1 = v)).getLast?).map Prod.snd := by
  constructor
  · have hnd : (t.encoding.map Prod.fst).Nodup :=
      nodup_map_fst_build_map t [] [] (by simp)
    have hmem : v ∈ t.encoding.map Prod.fst := by
      rw [HuffTree.encoding, mem_map_fst_build_map]
      exact Or.inl (List.count_pos_iff.mp (by omega))
    have hle := List.nodup_iff_count_le_one.mp hnd v
    have hge := List.count_pos_iff.mpr hmem
    omega
  · exact lookupA_encoding t v

/-- Witness for C9 on a tree holding the value `'a'` in two leaves: the
map keeps one entry for `'a'`, bound to the rightmost occurrence's path
`[true, false]`. -/
theorem claim_C9_witness :
    ((HuffTree.Node (HuffTree.Leaf 'a')
        (HuffTree.Node (HuffTree.Leaf 'a') (HuffTree.Leaf 'b'))).encoding.map
      Prod.fst).count 'a' = 1 ∧
    lookupA (HuffTree.Node (HuffTree.Leaf 'a')
        (HuffTree.Node (HuffTree.Leaf 'a') (HuffTree.Leaf 'b'))).encoding 'a' =
      ((((HuffTree.Node (HuffTree.Leaf 'a')
        (HuffTree.Node (HuffTree.Leaf 'a') (HuffTree.Leaf 'b'))).leafPaths []).filter
          (fun q => q.1 = 'a')).getLast?).map Prod.snd :=
  claim_C9_duplicate_leaves
    (HuffTree.Node (HuffTree.Leaf 'a')
      (HuffTree.Node (HuffTree.Leaf 'a') (HuffTree.Leaf 'b'))) 'a' (by decide)

/-- Claim C10: the traversal loop of `HuffReader::read` always returns
(`readAux` is total by structural recursion on the tree): every call
splits the source into a consumed prefix of length at most the tree
height and an untouched rest, and on success the consumed prefix is
exactly the root-to-leaf path of the returned leaf, so the number of
consumed bits equals that leaf's depth (its code length). -/
theorem claim_C10_read_consumes_path {V : Type} (t : HuffTree V)
    (bits : List Bool) :
    ∃ taken rest, bits = taken ++ rest ∧
      HuffReader.read ⟨t, bits⟩ = ((readAux t bits).1, ⟨t, rest⟩) ∧
      taken.length ≤ t.height ∧
      ∀ v, (readAux t bits).1 = .ok v →
        t.subtreeAt taken = some (HuffTree.Leaf v) := by
  obtain ⟨taken, rest, h1, h2, h3, h4⟩ := readAux_split t bits
  exact ⟨taken, rest, h1, by rw [HuffReader.read, h2], h3, h4⟩

/-- Witness for C10 on the two-leaf tree with source `[true]`: one bit is
consumed and the returned leaf sits at depth 1. -/
theorem claim_C10_witness :
    ∃ taken rest, ([true] : List Bool) = taken ++ rest ∧
      HuffReader.read ⟨HuffTree.Node (HuffTree.Leaf 'a') (HuffTree.Leaf 'b'), [true]⟩ =
        ((readAux (HuffTree.Node (HuffTree.Leaf 'a') (HuffTree.Leaf 'b')) [true]).1,
          ⟨HuffTree.Node (HuffTree.Leaf 'a') (HuffTree.Leaf 'b'), rest⟩) ∧
      taken.length ≤ (HuffTree.Node (HuffTree.Leaf 'a') (HuffTree.Leaf 'b')).height ∧
      ∀ v, (readAux (HuffTree.Node (HuffTree.Leaf 'a') (HuffTree.Leaf 'b')) [true]).1 =
          .ok v →
        (HuffTree.Node (HuffTree.Leaf 'a') (HuffTree.Leaf 'b')).subtreeAt taken =
          some (HuffTree.Leaf v) :=
  claim_C10_read_consumes_path
    (HuffTree.Node (HuffTree.Leaf 'a') (HuffTree.Leaf 'b')) [true]
